import Mathlib

/-
  Verification of the Nickname Reassignment and Crash-Safe Override Ledger
  of the discordnamechanger2 repository.

  Shallow embedding conventions:
  * sled trees are modelled at two levels: `TreeGet` models the fallible
    point-read behaviour of a tree (a read may return an I/O error, an
    absent value, well-formed UTF-8 bytes, or malformed bytes), and
    `Ledger` models the pure key-to-string map contents of a tree as an
    association list with first-match lookup.
  * u64 user ids and role ids are modelled as `Nat`; u16 role positions as
    `Nat`.
  * `.unwrap()` on a storage result is modelled by `unwrapOp`, whose
    `panicked` outcome stands for a process abort.
  * randomness (`rand::thread_rng` / `gen_range`) is modelled by an
    explicit stream of draws `rand : List Nat`; a draw in `0..len` is
    modelled as `rand.headD 0 % len`, which agrees with the source on
    every in-range draw and keeps the function total.
-/

namespace NameChanger

/-- Result of one storage primitive: success or an I/O error (sled `Err`). -/
inductive DbResult (α : Type) where
  | ok (a : α)
  | ioError (msg : String)
deriving DecidableEq

/-- Raw bytes stored under a key: either valid UTF-8 or malformed. -/
inductive StoredVal where
  | utf8 (s : String)
  | malformed
deriving DecidableEq

/-- Point-read behaviour of a sled tree: `tree.get(key)` may fail with an
I/O error or return an optional stored value. -/
def TreeGet : Type := Nat → DbResult (Option StoredVal)

/-- Embedding of `db.rs::get_name`: an I/O error is logged and treated as
unknown (`none`), malformed bytes are logged and treated as absent
(`none`), otherwise the decoded string is returned. -/
def get_name (tree : TreeGet) (key : Nat) : Option String :=
  match tree key with
  | DbResult.ioError _ => none
  | DbResult.ok none => none
  | DbResult.ok (some StoredVal.malformed) => none
  | DbResult.ok (some (StoredVal.utf8 s)) => some s

/-- Outcome of running one storage call through `.unwrap()`: either the
value, or a process abort (Rust panic). -/
inductive Outcome (α : Type) where
  | normal (a : α)
  | panicked
deriving DecidableEq

/-- Embedding of Rust `.unwrap()` on a storage result: an `Err` aborts the
process. -/
def unwrapOp {α : Type} : DbResult α → Outcome α
  | DbResult.ok a => Outcome.normal a
  | DbResult.ioError _ => Outcome.panicked

/-- Embedding of the ledger-commit step of `sync_nicks`
(`name_overrides.clear().unwrap(); name_overrides.apply_batch(...).unwrap()`):
each storage error is unwrapped, aborting the process. -/
def ledgerClearAndStage (clearRes batchRes : DbResult Unit) : Outcome Unit :=
  match unwrapOp clearRes with
  | Outcome.panicked => Outcome.panicked
  | Outcome.normal _ => unwrapOp batchRes

/-- Embedding of `tree.remove(key).unwrap()` (member removal and
member-update handlers): a storage error aborts the process. -/
def tree_remove (res : DbResult (Option StoredVal)) : Outcome (Option StoredVal) :=
  unwrapOp res

/-- Embedding of `db.open_tree(...).unwrap()`: a storage error aborts the
process. The tree handle itself is abstracted as the payload type. -/
def open_tree {α : Type} (res : DbResult α) : Outcome α :=
  unwrapOp res

/-- Pure contents of a sled tree: an association list from 8-byte-keyed
user ids to UTF-8 name strings, with map semantics (one binding per key). -/
abbrev Ledger : Type := List (Nat × String)

/-- Lookup in the contents of a tree (`tree.get` on well-formed state). -/
def lookupL : Ledger → Nat → Option String
  | [], _ => none
  | p :: ps, k => if p.1 = k then some p.2 else lookupL ps k

/-- Remove a key from the contents of a tree (`tree.remove` and
`batch.remove`). -/
def removeL : Ledger → Nat → Ledger
  | [], _ => []
  | p :: ps, k => if p.1 = k then removeL ps k else p :: removeL ps k

/-- Insert with map semantics: the new binding shadows and drops any old
binding of the same key. -/
def insertL (l : Ledger) (k : Nat) (v : String) : Ledger :=
  (k, v) :: removeL l k

/-- Embedding of `tree.apply_batch(make_name_batch(entries))`: the batch
inserts every entry in iteration order. -/
def applyNameBatch (t : Ledger) (entries : List (Nat × String)) : Ledger :=
  entries.foldl (fun acc p => insertL acc p.1 p.2) t

/-- Embedding of the override-ledger replacement in `sync_nicks`:
`name_overrides.clear()` followed by `apply_batch` of the staged entries.
The prior contents are discarded entirely. -/
def clear_and_stage_overrides (_t : Ledger) (entries : List (Nat × String)) : Ledger :=
  applyNameBatch [] entries

/-- Last-binding lookup in a batch: sled batch semantics let a later
insert of the same key win. -/
def lookupLastL : List (Nat × String) → Nat → Option String
  | [], _ => none
  | p :: ps, k =>
    match lookupLastL ps k with
    | some v => some v
    | none => if p.1 = k then some p.2 else none

theorem lookupL_removeL (t : Ledger) (a k : Nat) :
    lookupL (removeL t a) k = if k = a then none else lookupL t k := by
  induction t with
  | nil => simp [lookupL, removeL]
  | cons x xs ih =>
    by_cases hx : x.1 = a
    · rw [removeL, if_pos hx, ih]
      by_cases hk : k = a
      · simp [hk]
      · rw [if_neg hk, if_neg hk, lookupL, if_neg (fun h => hk (by omega))]
    · rw [removeL, if_neg hx, lookupL]
      by_cases hxk : x.1 = k
      · rw [if_pos hxk, lookupL, if_pos hxk, if_neg (fun h => hx (by omega))]
      · rw [if_neg hxk, ih, lookupL, if_neg hxk]

theorem lookupL_insertL (t : Ledger) (a : Nat) (v : String) (k : Nat) :
    lookupL (insertL t a v) k = if a = k then some v else lookupL t k := by
  rw [insertL, lookupL, lookupL_removeL]
  by_cases h : a = k
  · simp [h]
  · rw [if_neg h, if_neg h, if_neg (fun hk => h (by omega))]

theorem lookupL_applyNameBatch (entries : List (Nat × String)) (t : Ledger) (k : Nat) :
    lookupL (applyNameBatch t entries) k =
      match lookupLastL entries k with
      | some v => some v
      | none => lookupL t k := by
  induction entries generalizing t with
  | nil => rfl
  | cons p ps ih =>
    show lookupL (applyNameBatch (insertL t p.1 p.2) ps) k = _
    rw [ih, lookupLastL]
    cases lookupLastL ps k with
    | some v => rfl
    | none =>
      rw [lookupL_insertL]
      by_cases hp : p.1 = k
      · simp [hp]
      · simp [hp]

/-- C9: after the clear-and-stage step completes, the override namespace
holds exactly the staged entries (last staged binding per key) and nothing
else, whatever it held before. -/
theorem clear_and_stage_exact (t : Ledger) (entries : List (Nat × String)) (k : Nat) :
    lookupL (clear_and_stage_overrides t entries) k = lookupLastL entries k := by
  unfold clear_and_stage_overrides
  rw [lookupL_applyNameBatch]
  cases h : lookupLastL entries k with
  | some v => rfl
  | none => rfl

/-- Kind of a presence activity; only `Playing` triggers detection. -/
inductive ActivityKind where
  | playing
  | other
deriving DecidableEq

/-- The asset record of an activity; `largeText` carries the persona. -/
structure Assets where
  largeText : Option String
deriving DecidableEq

/-- A presence activity as consumed by the detector. -/
structure Activity where
  kind : ActivityKind
  applicationId : Option Nat
  name : String
  assets : Option Assets
deriving DecidableEq

/-- The target game identity used by `namechanger.rs`. -/
def LEAGUE_OF_LEGENDS_APPLICATION_ID : Option Nat := some 401518684763586560

/-- One step of the detector scan: a valid activity is one flagged
Playing with the target application id; on a valid activity the optional
asset text is extracted (an absent asset skips the activity). -/
def activityChampion (a : Activity) : Option String :=
  if a.kind = ActivityKind.playing ∧ a.applicationId = LEAGUE_OF_LEGENDS_APPLICATION_ID then
    match a.assets with
    | none => none
    | some assets => assets.largeText
  else none

/-- Embedding of `namechanger.rs::current_champion_from_activities`: the
first activity in iteration order that is valid and carries asset text. -/
def current_champion_from_activities (acts : List Activity) : Option String :=
  (acts.filterMap activityChampion).head?

/-- A guild member as consumed per call: platform user id, account
username, display name, and role set. -/
structure Member where
  userId : Nat
  username : String
  displayName : String
  roles : List Nat
deriving DecidableEq

instance : Inhabited Member := ⟨⟨0, "", "", []⟩⟩

/-- Embedding of `namechanger.rs::max_role_position`: the maximum ordinal
position among the roles of the member found in the role catalog, and 0
when none are found (the logged warning case). -/
def max_role_position (roles : Nat → Option Nat) (roleIds : List Nat) : Nat :=
  (roleIds.filterMap roles).foldl Nat.max 0

/-- All inputs one `sync_nicks` pass reads from the cache, the store and
the random generator. -/
structure SyncInput where
  members : List Member
  rolePos : Nat → Option Nat
  botRoles : List Nat
  presences : Nat → Option (List Activity)
  names : TreeGet
  rand : List Nat

/-- The maximum role position of the bot member, recomputed per pass. -/
def botMaxPos (inp : SyncInput) : Nat :=
  max_role_position inp.rolePos inp.botRoles

/-- Embedding of the permission filter in `sync_nicks`: members whose
maximum role position is strictly below the position of the bot. -/
def renamableMembers (inp : SyncInput) : List Member :=
  inp.members.filter
    (fun m => decide (max_role_position inp.rolePos m.roles < botMaxPos inp))

/-- Champion detection for one member: presence lookup then the detector
(`guild.presences.get(&member.user.id)` and the activity scan). -/
def memberChampion (inp : SyncInput) (m : Member) : Option String :=
  match inp.presences m.userId with
  | none => none
  | some acts => current_champion_from_activities acts

/-- Embedding of Rust `Vec::swap_remove(i)`: the element at `i` is
replaced by the last element and the vector shrinks by one. -/
def swapRemove {α : Type} (l : List α) (i : Nat) : List α :=
  match l.getLast? with
  | none => []
  | some last => (l.set i last).dropLast

/-- The index of the pool member chosen to receive a champion: a random
draw into the pool, stepped to the next slot when the draw picked the
member that sourced the champion (self-avoidance; with a pool of one the
step wraps back to the same member). -/
def champIdx (pool : List Member) (m : Member) (draw : Nat) : Nat :=
  if (pool.getD (draw % pool.length) default).userId = m.userId then
    (draw % pool.length + 1) % pool.length
  else
    draw % pool.length

theorem champIdx_lt (q : Member) (qs : List Member) (m : Member) (draw : Nat) :
    champIdx (q :: qs) m draw < (q :: qs).length := by
  unfold champIdx
  split
  · exact Nat.mod_lt _ (Nat.succ_pos _)
  · exact Nat.mod_lt _ (Nat.succ_pos _)

/-- Embedding of the champion-assignment loop of
`namechanger.rs::sync_nicks`: scan all present members; for each detected
champion draw a random index into the remaining renameable pool,
swap-remove the chosen target and pair it with the champion; the scan
stops when the pool is exhausted. Returns the champion pairs and the
remaining pool. -/
def assignChampions (inp : SyncInput) :
    List Member → List Member → List Nat → List (Nat × String) × List Member
  | [], pool, _ => ([], pool)
  | m :: ms, pool, rand =>
    match memberChampion inp m with
    | none => assignChampions inp ms pool rand
    | some champ =>
      match pool with
      | [] => ([], [])
      | q :: qs =>
        ((((q :: qs).getD (champIdx (q :: qs) m (rand.headD 0)) default).userId, champ)
            :: (assignChampions inp ms
                (swapRemove (q :: qs) (champIdx (q :: qs) m (rand.headD 0)))
                rand.tail).1,
          (assignChampions inp ms
            (swapRemove (q :: qs) (champIdx (q :: qs) m (rand.headD 0)))
            rand.tail).2)

/-- The full candidate list `new_nicks` of one pass: champion pairs first,
then every renameable member left in the pool falls back to the ledgered
name or, failing that, the account username. -/
def newNicks (inp : SyncInput) : List (Nat × String) :=
  let r := assignChampions inp inp.members (renamableMembers inp) inp.rand
  r.1 ++ r.2.map (fun m =>
    (m.userId,
      match get_name inp.names m.userId with
      | some nick => nick
      | none => m.username))

/-- The `old_nicks` list of one pass: every present member with a
ledgered canonical name, paired with that name. -/
def oldNicks (inp : SyncInput) : List (Nat × String) :=
  inp.members.filterMap
    (fun m => (get_name inp.names m.userId).map (fun n => (m.userId, n)))

/-- Externally visible actions of the handlers, in program order. -/
inductive Event where
  | renameOld (uid : Nat) (name : String)
  | ledgerClear
  | ledgerStage (entries : List (Nat × String))
  | renameNew (uid : Nat) (name : String)
  | canonicalWrite (uid : Nat) (name : String)
  | overrideRemove (uid : Nat)
  | restoreRename (uid : Nat) (name : String)
deriving DecidableEq

/-- The ordered action trace of one `sync_nicks` pass: the old-name
renames, then the override-ledger clear and stage, then the new-name
renames. The pass performs no canonical-namespace write. -/
def syncTrace (inp : SyncInput) : List Event :=
  (oldNicks inp).map (fun p => Event.renameOld p.1 p.2)
    ++ [Event.ledgerClear, Event.ledgerStage (newNicks inp)]
    ++ (newNicks inp).map (fun p => Event.renameNew p.1 p.2)

/-- True for the new-name rename calls of the APPLY phase. -/
def isRenameNew : Event → Bool
  | Event.renameNew _ _ => true
  | _ => false

/-- True for writes to the canonical-name namespace. -/
def isCanonicalWrite : Event → Bool
  | Event.canonicalWrite _ _ => true
  | _ => false

/-- True for the canonical-name write of a given member. -/
def isCanonicalWriteFor (e : Event) (uid : Nat) : Bool :=
  match e with
  | Event.canonicalWrite u _ => u == uid
  | _ => false

/-- True for any write touching a ledger namespace. -/
def isLedgerWrite : Event → Bool
  | Event.ledgerClear => true
  | Event.ledgerStage _ => true
  | Event.canonicalWrite _ _ => true
  | Event.overrideRemove _ => true
  | _ => false

theorem length_le_of_get?_pred {α : Type} (p : α → Bool) (A B : List α)
    (hA : ∀ x ∈ A, p x = false) (j : Nat) (e : α)
    (hj : (A ++ B).get? j = some e) (he : p e = true) : A.length ≤ j := by
  by_contra h
  push_neg at h
  rw [List.get?_append h] at hj
  have hmem : e ∈ A := List.get?_mem hj
  rw [hA e hmem] at he
  exact Bool.false_ne_true he

/-- C2: within one pass, the override-namespace clear and the staging of
the full new override set sit at fixed positions of the trace, and every
new-name rename of the APPLY phase comes strictly later. -/
theorem sync_ledger_commit_before_new_renames (inp : SyncInput) (j : Nat) (e : Event)
    (hj : (syncTrace inp).get? j = some e) (hnew : isRenameNew e = true) :
    (syncTrace inp).get? (oldNicks inp).length = some Event.ledgerClear ∧
    (syncTrace inp).get? ((oldNicks inp).length + 1)
      = some (Event.ledgerStage (newNicks inp)) ∧
    (oldNicks inp).length + 1 < j := by
  have htrace : syncTrace inp =
      ((oldNicks inp).map (fun p => Event.renameOld p.1 p.2)
        ++ [Event.ledgerClear, Event.ledgerStage (newNicks inp)])
      ++ (newNicks inp).map (fun p => Event.renameNew p.1 p.2) := by
    simp [syncTrace]
  have hAlen : ((oldNicks inp).map (fun p => Event.renameOld p.1 p.2)).length
      = (oldNicks inp).length := List.length_map _ _
  have hprefix : ∀ x ∈ (oldNicks inp).map (fun p => Event.renameOld p.1 p.2)
        ++ [Event.ledgerClear, Event.ledgerStage (newNicks inp)],
      isRenameNew x = false := by
    intro x hx
    rcases List.mem_append.mp hx with hx | hx
    · rcases List.mem_map.mp hx with ⟨q, _, rfl⟩
      rfl
    · rcases List.mem_cons.mp hx with rfl | hx
      · rfl
      · rcases List.mem_cons.mp hx with rfl | hx
        · rfl
        · cases hx
  have hge : ((oldNicks inp).map (fun p => Event.renameOld p.1 p.2)
      ++ [Event.ledgerClear, Event.ledgerStage (newNicks inp)]).length ≤ j := by
    refine length_le_of_get?_pred isRenameNew _
      ((newNicks inp).map (fun p => Event.renameNew p.1 p.2)) hprefix j e ?_ hnew
    rw [← htrace]
    exact hj
  have hlen2 : ((oldNicks inp).map (fun p => Event.renameOld p.1 p.2)
      ++ [Event.ledgerClear, Event.ledgerStage (newNicks inp)]).length
      = (oldNicks inp).length + 2 := by
    rw [List.length_append, hAlen]
    rfl
  refine ⟨?_, ?_, by omega⟩
  · rw [htrace, List.append_assoc, List.get?_append_right (le_of_eq hAlen)]
    simp [hAlen]
  · rw [htrace, List.append_assoc,
      List.get?_append_right (le_trans (le_of_eq hAlen) (Nat.le_succ _))]
    rw [hAlen]
    simp

/-- A concrete pass: one present renameable member with no detected
activity, no ledgered canonical name, bot position 5. -/
def exRenameInput : SyncInput where
  members := [⟨1, "alice", "alice", []⟩]
  rolePos := fun r => if r = 10 then some 5 else none
  botRoles := [10]
  presences := fun _ => none
  names := fun _ => DbResult.ok none
  rand := []

/-- Witness for C2 at a concrete pass whose APPLY phase renames member 1. -/
theorem sync_ledger_commit_before_new_renames_witness :
    (syncTrace exRenameInput).get? (oldNicks exRenameInput).length
      = some Event.ledgerClear ∧
    (syncTrace exRenameInput).get? ((oldNicks exRenameInput).length + 1)
      = some (Event.ledgerStage (newNicks exRenameInput)) ∧
    (oldNicks exRenameInput).length + 1 < 2 :=
  sync_ledger_commit_before_new_renames exRenameInput 2
    (Event.renameNew 1 "alice") (by decide) (by decide)

/-- C3 fails on the code: in this concrete pass the present member never
receives a canonical-name write, because `sync_nicks` writes no
canonical-name entry at all. -/
theorem sync_pass_no_canonical_write_counterexample :
    ¬ (∀ m ∈ exRenameInput.members, ∃ e ∈ syncTrace exRenameInput,
        isCanonicalWriteFor e m.userId = true) := by
  decide

theorem filter_map_eq_nil_of_pred_false {β : Type} (p : Event → Bool)
    (f : β → Event) (hf : ∀ q, p (f q) = false) (l : List β) :
    (l.map f).filter p = [] := by
  induction l with
  | nil => rfl
  | cons x xs ih => simp [List.filter_cons, hf, ih]

/-- C3 amended: a sync pass performs no canonical-namespace write; its
only ledger writes are the override clear followed by the staging of the
full new override set. -/
theorem sync_pass_ledger_writes_are_override_only (inp : SyncInput) :
    (syncTrace inp).filter isCanonicalWrite = [] ∧
    (syncTrace inp).filter isLedgerWrite
      = [Event.ledgerClear, Event.ledgerStage (newNicks inp)] := by
  constructor
  · unfold syncTrace
    rw [List.filter_append, List.filter_append,
      filter_map_eq_nil_of_pred_false isCanonicalWrite
        (fun p : Nat × String => Event.renameOld p.1 p.2) (fun q => rfl),
      filter_map_eq_nil_of_pred_false isCanonicalWrite
        (fun p : Nat × String => Event.renameNew p.1 p.2) (fun q => rfl)]
    rfl
  · unfold syncTrace
    rw [List.filter_append, List.filter_append,
      filter_map_eq_nil_of_pred_false isLedgerWrite
        (fun p : Nat × String => Event.renameOld p.1 p.2) (fun q => rfl),
      filter_map_eq_nil_of_pred_false isLedgerWrite
        (fun p : Nat × String => Event.renameNew p.1 p.2) (fun q => rfl)]
    rfl

/-- C8: membership in the renameable list is exactly membership among the
present members together with a maximum role position strictly below the
maximum role position of the bot; a member holding no catalogued roles
has position 0; equality of positions excludes the member. -/
theorem permission_filter_rule (inp : SyncInput) (m : Member) :
    (m ∈ renamableMembers inp ↔
      m ∈ inp.members ∧
        max_role_position inp.rolePos m.roles
          < max_role_position inp.rolePos inp.botRoles) ∧
    max_role_position inp.rolePos ([] : List Nat) = 0 ∧
    (max_role_position inp.rolePos m.roles
        = max_role_position inp.rolePos inp.botRoles →
      m ∉ renamableMembers inp) := by
  refine ⟨?_, rfl, ?_⟩
  · simp [renamableMembers, List.mem_filter, botMaxPos]
  · intro heq hmem
    rcases List.mem_filter.mp hmem with ⟨_, hlt⟩
    simp only [decide_eq_true_eq, botMaxPos] at hlt
    omega

/-- A concrete catalog where the member's maximum role position equals
the bot's. -/
def exEqualPosInput : SyncInput where
  members := [⟨2, "bob", "bob", [10]⟩]
  rolePos := fun r => if r = 10 then some 5 else none
  botRoles := [10]
  presences := fun _ => none
  names := fun _ => DbResult.ok none
  rand := []

/-- Witness for C8: a member whose maximum role position (5) equals the
bot's (5) is excluded from the renameable list. -/
theorem permission_filter_rule_witness :
    (⟨2, "bob", "bob", [10]⟩ : Member) ∉ renamableMembers exEqualPosInput :=
  (permission_filter_rule exEqualPosInput ⟨2, "bob", "bob", [10]⟩).2.2 (by decide)

theorem getLast?_cons_dropLast_perm {α : Type} (l : List α) (a : α)
    (h : l.getLast? = some a) : List.Perm (a :: l.dropLast) l := by
  have hmem : a ∈ l.getLast? := by rw [h]; rfl
  have hsplit := List.dropLast_append_getLast? a hmem
  have h1 : List.Perm (a :: l.dropLast) (l.dropLast ++ [a]) :=
    (List.perm_append_singleton a l.dropLast).symm
  rw [hsplit] at h1
  exact h1

theorem swapRemove_perm {α : Type} (d : α) :
    ∀ (l : List α) (i : Nat), i < l.length →
      List.Perm (l.getD i d :: swapRemove l i) l := by
  intro l
  induction l with
  | nil => intro i h; simp at h
  | cons x xs ih =>
    intro i hi
    cases xs with
    | nil =>
      have hz : i = 0 := by simpa using hi
      subst hz
      simp [swapRemove]
    | cons y ys =>
      obtain ⟨a, ha⟩ : ∃ a, (y :: ys).getLast? = some a := by
        have := (List.getLast?_isSome (l := y :: ys)).mpr (by simp)
        exact Option.isSome_iff_exists.mp this
      have hsw : swapRemove (x :: y :: ys) i = ((x :: y :: ys).set i a).dropLast := by
        rw [swapRemove, List.getLast?_cons_cons, ha]
      cases i with
      | zero =>
        rw [hsw]
        show List.Perm (x :: (a :: y :: ys).dropLast) (x :: y :: ys)
        rw [List.dropLast_cons₂]
        exact (getLast?_cons_dropLast_perm (y :: ys) a ha).cons x
      | succ n =>
        have hset : (x :: y :: ys).set (n + 1) a = x :: (y :: ys).set n a := rfl
        obtain ⟨b, t, hbt⟩ : ∃ b t, (y :: ys).set n a = b :: t := by
          cases n with
          | zero => exact ⟨_, _, rfl⟩
          | succ k => exact ⟨_, _, rfl⟩
        have hdl : (x :: (y :: ys).set n a).dropLast
            = x :: ((y :: ys).set n a).dropLast := by
          rw [hbt]
          exact List.dropLast_cons₂
        rw [hsw, hset, hdl]
        have hsw2 : swapRemove (y :: ys) n = ((y :: ys).set n a).dropLast := by
          rw [swapRemove, ha]
        rw [← hsw2]
        have hlt : n < (y :: ys).length := by
          simp only [List.length_cons] at hi ⊢
          omega
        show List.Perm ((y :: ys).getD n d :: x :: swapRemove (y :: ys) n)
          (x :: y :: ys)
        exact List.Perm.trans
          (List.Perm.swap x ((y :: ys).getD n d) (swapRemove (y :: ys) n))
          ((ih n hlt).cons x)

theorem assignChampions_ids_perm (inp : SyncInput) :
    ∀ (scan pool : List Member) (rand : List Nat),
      List.Perm ((assignChampions inp scan pool rand).1.map Prod.fst
        ++ (assignChampions inp scan pool rand).2.map Member.userId)
        (pool.map Member.userId) := by
  intro scan
  induction scan with
  | nil => intro pool rand; simp [assignChampions]
  | cons m ms ih =>
    intro pool rand
    cases hch : memberChampion inp m with
    | none =>
      have hstep : assignChampions inp (m :: ms) pool rand
          = assignChampions inp ms pool rand := by
        rw [assignChampions, hch]
      rw [hstep]
      exact ih pool rand
    | some champ =>
      cases pool with
      | nil =>
        have hstep : assignChampions inp (m :: ms) [] rand
            = (([] : List (Nat × String)), ([] : List Member)) := by
          rw [assignChampions, hch]
        rw [hstep]
        simp
      | cons q qs =>
        have hstep : assignChampions inp (m :: ms) (q :: qs) rand
            = ((((q :: qs).getD (champIdx (q :: qs) m (rand.headD 0)) default).userId,
                  champ)
                :: (assignChampions inp ms
                    (swapRemove (q :: qs) (champIdx (q :: qs) m (rand.headD 0)))
                    rand.tail).1,
              (assignChampions inp ms
                (swapRemove (q :: qs) (champIdx (q :: qs) m (rand.headD 0)))
                rand.tail).2) := by
          rw [assignChampions, hch]
        rw [hstep]
        simp only [List.map_cons, List.cons_append]
        refine List.Perm.trans
          (List.Perm.cons _ (ih (swapRemove (q :: qs)
            (champIdx (q :: qs) m (rand.headD 0))) rand.tail)) ?_
        have hperm := swapRemove_perm (default : Member) (q :: qs)
          (champIdx (q :: qs) m (rand.headD 0))
          (champIdx_lt q qs m (rand.headD 0))
        have hmapped := hperm.map Member.userId
        simpa using hmapped

theorem newNicks_ids_perm (inp : SyncInput) :
    List.Perm ((newNicks inp).map Prod.fst)
      ((renamableMembers inp).map Member.userId) := by
  have h0 := assignChampions_ids_perm inp inp.members (renamableMembers inp) inp.rand
  unfold newNicks
  simp only [List.map_append, List.map_map]
  simpa [Function.comp] using h0

/-- C1 amended: under distinct user ids, the candidate list of the live
assignment engine holds exactly one pair for each renameable present
member and none for a member the permission filter excludes. -/
theorem assignment_one_candidate_per_renameable (inp : SyncInput)
    (h : (inp.members.map Member.userId).Nodup) (m : Member)
    (hm : m ∈ inp.members) :
    ((newNicks inp).map Prod.fst).count m.userId
      = if max_role_position inp.rolePos m.roles < botMaxPos inp then 1 else 0 := by
  rw [(newNicks_ids_perm inp).count_eq]
  by_cases hren : max_role_position inp.rolePos m.roles < botMaxPos inp
  · rw [if_pos hren]
    apply List.count_eq_one_of_mem
    · exact h.sublist ((List.filter_sublist _).map Member.userId)
    · exact List.mem_map.mpr
        ⟨m, List.mem_filter.mpr ⟨hm, decide_eq_true hren⟩, rfl⟩
  · rw [if_neg hren, List.count_eq_zero]
    intro hmem
    rcases List.mem_map.mp hmem with ⟨q, hq, hid⟩
    rcases List.mem_filter.mp hq with ⟨hqmem, hqp⟩
    have hqm : q = m := List.inj_on_of_nodup_map h hqmem hm hid
    subst hqm
    rw [decide_eq_true_eq] at hqp
    exact hren hqp

/-- A concrete pass whose single present member is not renameable: the
bot holds no catalogued role, so nobody outranks it. -/
def exUnrenameableInput : SyncInput where
  members := [⟨1, "alice", "alice", []⟩]
  rolePos := fun _ => none
  botRoles := []
  presences := fun _ => none
  names := fun _ => DbResult.ok none
  rand := []

/-- C1 fails on the code as stated: the present (but unrenameable) member
of this pass receives no candidate at all. -/
theorem assignment_all_members_counterexample :
    ¬ (∀ m ∈ exUnrenameableInput.members,
        ((newNicks exUnrenameableInput).map Prod.fst).count m.userId = 1) := by
  decide

/-- Witness for the amended C1: the renameable member of a concrete pass
receives exactly one candidate. -/
theorem assignment_one_candidate_per_renameable_witness :
    ((newNicks exRenameInput).map Prod.fst).count 1
      = if max_role_position exRenameInput.rolePos ([] : List Nat)
          < botMaxPos exRenameInput then 1 else 0 :=
  assignment_one_candidate_per_renameable exRenameInput (by decide)
    ⟨1, "alice", "alice", []⟩ (by decide)

/-- Embedding of `namechanger/mod.rs::gen_derangement`. The third-party
derangement crate is not part of this repository; its output for a given
size is the parameter `derange`, constrained in the theorem by its
documented contract (a uniformly random fixed-point-free permutation). -/
def gen_derangement (derange : Nat → List Nat) (size : Nat) : List Nat :=
  match size with
  | 0 => []
  | 1 => [0]
  | _ => derange size

/-- C4: the generated donor permutation is empty for size 0, the self-map
for size 1, and for size at least 2 a permutation of the range with no
fixed point, given the crate contract at that size. -/
theorem gen_derangement_spec (derange : Nat → List Nat) (n : Nat)
    (hd : 2 ≤ n → List.Perm (derange n) (List.range n) ∧
      ∀ i < n, (derange n).get? i ≠ some i) :
    gen_derangement derange 0 = [] ∧
    gen_derangement derange 1 = [0] ∧
    (2 ≤ n → List.Perm (gen_derangement derange n) (List.range n) ∧
      ∀ i < n, (gen_derangement derange n).get? i ≠ some i) := by
  refine ⟨rfl, rfl, fun h2 => ?_⟩
  have hg : gen_derangement derange n = derange n := by
    obtain ⟨m, rfl⟩ : ∃ m, n = m + 2 := ⟨n - 2, by omega⟩
    rfl
  rw [hg]
  exact hd h2

/-- Witness for C4 with the rotation-by-one derangement on three members. -/
theorem gen_derangement_spec_witness :
    gen_derangement (fun _ => [1, 2, 0]) 0 = [] ∧
    gen_derangement (fun _ => [1, 2, 0]) 1 = [0] ∧
    (2 ≤ 3 → List.Perm (gen_derangement (fun _ => [1, 2, 0]) 3) (List.range 3) ∧
      ∀ i < 3, (gen_derangement (fun _ => [1, 2, 0]) 3).get? i ≠ some i) :=
  gen_derangement_spec (fun _ => [1, 2, 0]) 3 (by decide)

/-- C5 fails on the code: a storage error during the override-namespace
clear is unwrapped and aborts the process instead of being swallowed. -/
theorem storage_error_aborts_counterexample :
    ¬ (∀ msg : String,
        ledgerClearAndStage (DbResult.ioError msg) (DbResult.ok ())
          ≠ Outcome.panicked) :=
  fun h => h "disk full" rfl

/-- C5 amended: only the `get_name` read path swallows a storage error
(logged, value treated as unknown); the clearing, batch-staging,
tree-opening and entry-removal operations unwrap the error and abort the
process. -/
theorem storage_error_handling (msg : String) (tree : TreeGet) (k : Nat)
    (herr : tree k = DbResult.ioError msg) :
    get_name tree k = none ∧
    ledgerClearAndStage (DbResult.ioError msg) (DbResult.ok ())
      = Outcome.panicked ∧
    ledgerClearAndStage (DbResult.ok ()) (DbResult.ioError msg)
      = Outcome.panicked ∧
    tree_remove (DbResult.ioError msg) = Outcome.panicked ∧
    (open_tree (DbResult.ioError msg) : Outcome Unit) = Outcome.panicked := by
  refine ⟨?_, rfl, rfl, rfl, rfl⟩
  rw [get_name, herr]

/-- Witness for the amended C5 on a store whose every read fails. -/
theorem storage_error_handling_witness :
    get_name (fun _ => DbResult.ioError "disk full") 0 = none ∧
    ledgerClearAndStage (DbResult.ioError "disk full") (DbResult.ok ())
      = Outcome.panicked ∧
    ledgerClearAndStage (DbResult.ok ()) (DbResult.ioError "disk full")
      = Outcome.panicked ∧
    tree_remove (DbResult.ioError "disk full") = Outcome.panicked ∧
    (open_tree (DbResult.ioError "disk full") : Outcome Unit)
      = Outcome.panicked :=
  storage_error_handling "disk full" (fun _ => DbResult.ioError "disk full") 0 rfl

/-- External collaborators of the overridden-only restore run: the live
display-name lookup (`http.get_member`, `none` on failure) and the
success of the revert rename call. -/
structure RestoreEnv where
  getMemberDisplay : Nat → Nat → Option String
  editMemberOk : Nat → Nat → Bool

/-- Embedding of the per-entry examination in
`namerestorer.rs::restore_overridden`: when the live display name still
equals the recorded override, the revert is attempted and a failure yields
no removal marker (`None`); a successful or skipped revert yields the
member key for the removal batch. -/
def examineOverride (env : RestoreEnv) (guildId userId : Nat)
    (overriddenName : String) : Option Nat :=
  if env.getMemberDisplay guildId userId = some overriddenName then
    if env.editMemberOk guildId userId then some userId else none
  else
    some userId

/-- The override namespace of one guild after an overridden-only restore
run: every entry is examined and the removal batch built from the `Some`
results is applied. (The canonical-name lookup feeding the revert call
does not affect which entries are removed and is omitted here.) -/
def restore_overridden_final (env : RestoreEnv) (guildId : Nat)
    (ov : Ledger) : Ledger :=
  (List.filterMap (fun p => examineOverride env guildId p.1 p.2) ov).foldl removeL ov

theorem lookupL_foldl_removeL (rs : List Nat) (t : Ledger) (u : Nat) :
    lookupL (rs.foldl removeL t) u = if u ∈ rs then none else lookupL t u := by
  induction rs generalizing t with
  | nil => simp
  | cons r rs ih =>
    show lookupL (rs.foldl removeL (removeL t r)) u = _
    rw [ih, lookupL_removeL]
    by_cases hur : u = r
    · simp [hur]
    · by_cases hin : u ∈ rs
      · simp [hin, hur]
      · simp [hin, hur]

theorem mem_of_lookupL (t : Ledger) (u : Nat) (v : String)
    (h : lookupL t u = some v) : (u, v) ∈ t := by
  induction t with
  | nil => cases h
  | cons x xs ih =>
    rw [lookupL] at h
    by_cases hx : x.1 = u
    · rw [if_pos hx] at h
      have hv : x.2 = v := Option.some.inj h
      have hxuv : x = (u, v) := by
        obtain ⟨x1, x2⟩ := x
        simp only at hx hv
        rw [hx, hv]
      exact hxuv ▸ List.mem_cons_self x xs
    · rw [if_neg hx] at h
      exact List.mem_cons_of_mem _ (ih h)

theorem lookupL_eq_of_mem_nodup (t : Ledger) (u : Nat) (v : String)
    (hnd : (t.map Prod.fst).Nodup) (hm : (u, v) ∈ t) :
    lookupL t u = some v := by
  induction t with
  | nil => cases hm
  | cons x xs ih =>
    rw [List.map_cons, List.nodup_cons] at hnd
    rcases List.mem_cons.mp hm with rfl | hm2
    · rw [lookupL, if_pos rfl]
    · have hx : ¬ x.1 = u := by
        intro hx
        have : x.1 ∈ xs.map Prod.fst := by
          rw [hx]
          exact List.mem_map.mpr ⟨(u, v), hm2, rfl⟩
        exact hnd.1 this
      rw [lookupL, if_neg hx]
      exact ih hnd.2 hm2

/-- C6 amended: with distinct keys, an examined override entry stays in
the namespace exactly when the live name still matched the override and
the revert call failed; a successful or skipped revert removes it. -/
theorem restore_overridden_removal_rule (env : RestoreEnv) (g : Nat)
    (ov : Ledger) (hnd : (ov.map Prod.fst).Nodup) (u : Nat) (nm : String)
    (hl : lookupL ov u = some nm) :
    lookupL (restore_overridden_final env g ov) u
      = if env.getMemberDisplay g u = some nm ∧ env.editMemberOk g u = false
        then some nm else none := by
  rw [restore_overridden_final, lookupL_foldl_removeL]
  have hmem : (u, nm) ∈ ov := mem_of_lookupL ov u nm hl
  by_cases hkeep : env.getMemberDisplay g u = some nm ∧ env.editMemberOk g u = false
  · rw [if_pos hkeep]
    have hnotin : u ∉ List.filterMap (fun p => examineOverride env g p.1 p.2) ov := by
      intro hin
      rcases List.mem_filterMap.mp hin with ⟨p, hp, hex⟩
      have hp1 : p.1 = u := by
        unfold examineOverride at hex
        split at hex
        · split at hex
          · exact Option.some.inj hex
          · cases hex
        · exact Option.some.inj hex
      have hlp : lookupL ov u = some p.2 := by
        apply lookupL_eq_of_mem_nodup ov u p.2 hnd
        have : (p.1, p.2) ∈ ov := by
          simpa using hp
        rw [hp1] at this
        exact this
      have hp2 : p.2 = nm := by
        rw [hl] at hlp
        exact (Option.some.inj hlp).symm
      rw [hp1, hp2] at hex
      unfold examineOverride at hex
      rw [if_pos hkeep.1, if_neg (by rw [hkeep.2]; exact Bool.false_ne_true)] at hex
      cases hex
    rw [if_neg hnotin]
    exact hl
  · rw [if_neg hkeep]
    have hex : examineOverride env g u nm = some u := by
      unfold examineOverride
      by_cases h1 : env.getMemberDisplay g u = some nm
      · rw [if_pos h1]
        have h2 : env.editMemberOk g u = true := by
          cases hbe : env.editMemberOk g u
          · exact absurd ⟨h1, hbe⟩ hkeep
          · rfl
        rw [if_pos h2]
      · rw [if_neg h1]
    have hin : u ∈ List.filterMap (fun p => examineOverride env g p.1 p.2) ov :=
      List.mem_filterMap.mpr ⟨(u, nm), hmem, hex⟩
    rw [if_pos hin]

/-- An environment in which the member still carries the override and the
revert rename call fails. -/
def exFailEnv : RestoreEnv where
  getMemberDisplay := fun _ _ => some "X"
  editMemberOk := fun _ _ => false

/-- C6 fails on the code: after this run the examined entry whose revert
call failed is still present in the override namespace. -/
theorem restore_overridden_counterexample :
    ¬ (∀ u ∈ (([(5, "X")] : Ledger).map Prod.fst),
        lookupL (restore_overridden_final exFailEnv 1 [(5, "X")]) u = none) := by
  decide

/-- Witness for the amended C6: the failed-revert entry is kept with its
override value. -/
theorem restore_overridden_removal_rule_witness :
    lookupL (restore_overridden_final exFailEnv 1 [(5, "X")]) 5
      = if exFailEnv.getMemberDisplay 1 5 = some "X"
            ∧ exFailEnv.editMemberOk 1 5 = false
        then some "X" else none :=
  restore_overridden_removal_rule exFailEnv 1 [(5, "X")] (by decide) 5 "X" (by decide)

/-- Embedding of `db.rs::has_overridden_name`: the member counts as
overridden when the stored override equals the current display name
(the ledger contents are read through `get_name` on well-formed state). -/
def has_overridden_name (m : Member) (ov : Ledger) : Bool :=
  lookupL ov m.userId == some m.displayName

/-- Canonical-name writes of `guild_create`: one batch entry per member
without an active override. -/
def guild_create_names (members : List Member) (ov : Ledger)
    (names : Ledger) : Ledger :=
  applyNameBatch names
    ((members.filter (fun m => !(has_overridden_name m ov))).map
      (fun m => (m.userId, m.displayName)))

/-- Canonical-name writes of `guild_member_update`: nothing when an
override is active, else one batch entry with the display name. -/
def guild_member_update_names (m : Member) (ov : Ledger)
    (names : Ledger) : Ledger :=
  if has_overridden_name m ov then names
  else applyNameBatch names [(m.userId, m.displayName)]

/-- Canonical-name write of `guild_member_addition`: an unconditional
insert of the display name. -/
def guild_member_addition_names (m : Member) (names : Ledger) : Ledger :=
  insertL names m.userId m.displayName

theorem lookupLastL_eq_none_of_not_mem (es : List (Nat × String)) (k : Nat)
    (h : k ∉ es.map Prod.fst) : lookupLastL es k = none := by
  induction es with
  | nil => rfl
  | cons p ps ih =>
    rw [List.map_cons] at h
    rw [lookupLastL, ih (fun hin => h (List.mem_cons_of_mem _ hin)),
      if_neg (fun hp => h (List.mem_cons.mpr (Or.inl hp.symm)))]

theorem lookupL_applyNameBatch_of_not_mem (t : Ledger)
    (es : List (Nat × String)) (k : Nat) (h : k ∉ es.map Prod.fst) :
    lookupL (applyNameBatch t es) k = lookupL t k := by
  rw [lookupL_applyNameBatch, lookupLastL_eq_none_of_not_mem es k h]

/-- C7 amended: the bulk guild load and the member-update handler leave
the canonical entry of a member with an active override unchanged, but
the member-join handler overwrites the canonical entry with the display
name unconditionally, override or not. -/
theorem canonical_overwrite_guard :
    (∀ (members : List Member) (ov names : Ledger) (m : Member),
        (members.map Member.userId).Nodup → m ∈ members →
        has_overridden_name m ov = true →
        lookupL (guild_create_names members ov names) m.userId
          = lookupL names m.userId) ∧
    (∀ (m : Member) (ov names : Ledger),
        has_overridden_name m ov = true →
        guild_member_update_names m ov names = names) ∧
    (∀ (m : Member) (names : Ledger),
        lookupL (guild_member_addition_names m names) m.userId
          = some m.displayName) := by
  refine ⟨?_, ?_, ?_⟩
  · intro members ov names m hnd hm hov
    apply lookupL_applyNameBatch_of_not_mem
    intro hin
    rcases List.mem_map.mp hin with ⟨p, hp, hfst⟩
    rcases List.mem_map.mp hp with ⟨q, hq, rfl⟩
    rcases List.mem_filter.mp hq with ⟨hqmem, hqpred⟩
    have hqm : q = m := List.inj_on_of_nodup_map hnd hqmem hm hfst
    subst hqm
    rw [hov] at hqpred
    simp at hqpred
  · intro m ov names hov
    rw [guild_member_update_names, if_pos hov]
  · intro m names
    rw [guild_member_addition_names, lookupL_insertL, if_pos rfl]

/-- C7 fails on the code: this member carries an active override
(stored override equals the display name), yet the member-join handler
replaces the canonical entry. -/
theorem canonical_overwrite_counterexample :
    has_overridden_name ⟨7, "user", "BotName", []⟩ [(7, "BotName")] = true ∧
    lookupL (guild_member_addition_names ⟨7, "user", "BotName", []⟩
        [(7, "Original")]) 7
      ≠ lookupL [(7, "Original")] 7 := by
  decide

/-- Witness for the amended C7: the bulk guild load leaves the canonical
entry of an actively overridden member unchanged. -/
theorem canonical_overwrite_guard_witness :
    lookupL (guild_create_names [⟨7, "user", "BotName", []⟩]
        [(7, "BotName")] [(7, "Original")]) 7
      = lookupL [(7, "Original")] 7 :=
  canonical_overwrite_guard.1 [⟨7, "user", "BotName", []⟩] [(7, "BotName")]
    [(7, "Original")] ⟨7, "user", "BotName", []⟩ (by decide) (by decide) (by decide)

/-- The rename target of the old-state branch of `voice_state_update`:
the ledgered canonical name when a valid entry exists, else the account
username (`get_name(...).unwrap_or(member.user.name)`). -/
def restoreNickTarget (names : TreeGet) (m : Member) : String :=
  match get_name names m.userId with
  | some nick => nick
  | none => m.username

/-- The rename issued by the old-state branch of `voice_state_update`:
only a state carrying a member triggers a restore rename. -/
def voiceOldStateEvents (names : TreeGet) (memberOpt : Option Member) : List Event :=
  match memberOpt with
  | none => []
  | some m => [Event.restoreRename m.userId (restoreNickTarget names m)]

/-- C10: whenever the old voice state carries a member, the handler
issues exactly one rename for that member, to the canonical-namespace
name when a valid entry exists and to the account username otherwise. -/
theorem voice_leave_restores_canonical (names : TreeGet) (mo : Option Member)
    (m : Member) (hm : mo = some m) :
    voiceOldStateEvents names mo
      = [Event.restoreRename m.userId (restoreNickTarget names m)] ∧
    (∀ n, get_name names m.userId = some n → restoreNickTarget names m = n) ∧
    (get_name names m.userId = none → restoreNickTarget names m = m.username) := by
  subst hm
  refine ⟨rfl, ?_, ?_⟩
  · intro n hn
    rw [restoreNickTarget, hn]
  · intro hn
    rw [restoreNickTarget, hn]

/-- A canonical-name store holding an entry for member 1 only. -/
def exCanonNames : TreeGet := fun k =>
  if k = 1 then DbResult.ok (some (StoredVal.utf8 "Canon")) else DbResult.ok none

/-- Witness for C10 at a concrete departing member with a ledger entry. -/
theorem voice_leave_restores_canonical_witness :
    voiceOldStateEvents exCanonNames (some ⟨1, "alice", "alice", []⟩)
      = [Event.restoreRename 1
          (restoreNickTarget exCanonNames ⟨1, "alice", "alice", []⟩)] ∧
    (∀ n, get_name exCanonNames 1 = some n →
        restoreNickTarget exCanonNames ⟨1, "alice", "alice", []⟩ = n) ∧
    (get_name exCanonNames 1 = none →
        restoreNickTarget exCanonNames ⟨1, "alice", "alice", []⟩ = "alice") :=
  voice_leave_restores_canonical exCanonNames (some ⟨1, "alice", "alice", []⟩)
    ⟨1, "alice", "alice", []⟩ rfl

end NameChanger
